import Mathlib

/-!
Verification development for a Rust SMTP client / MIME email builder.

The definitions below are shallow embeddings of the functions in
`src/utils.rs`, `src/email.rs` and `src/mailer.rs`:

* strings are Lean `String`s; a Rust byte slice is a `List Nat` whose
  elements are the byte values;
* the fallible builder `Email::new` returns `Except EmailBuildError Email`;
* the socket read loop `read_response` is modelled as a pure function of
  the list of chunks delivered by successive `read` calls (an exhausted
  list models the peer closing the connection, i.e. `read` returning 0);
* `getrandom`'s output is passed explicitly as a byte list.
-/

/-! ## Generic list helpers -/

/-- Two-step course-of-values induction on lists: used for functions that
consume one or two elements per step. -/
theorem list_twoStep {α : Type} {P : List α → Prop} (h0 : P []) (h1 : ∀ a, P [a])
    (h2 : ∀ a b l, P l → P (b :: l) → P (a :: b :: l)) : ∀ l, P l := by
  have key : ∀ n : Nat, ∀ l : List α, l.length ≤ n → P l := by
    intro n
    induction n with
    | zero =>
      intro l hl
      cases l with
      | nil => exact h0
      | cons a t => simp at hl
    | succ n ih =>
      intro l hl
      cases l with
      | nil => exact h0
      | cons a t =>
        cases t with
        | nil => exact h1 a
        | cons b r =>
          have hr : r.length ≤ n := by simp at hl; omega
          have hbr : (b :: r).length ≤ n := by simp at hl; simp; omega
          exact h2 a b r (ih r hr) (ih (b :: r) hbr)
  intro l
  exact key l.length l le_rfl

/-- Three-step course-of-values induction on lists: used for functions that
consume up to three elements per step. -/
theorem list_threeStep {α : Type} {P : List α → Prop} (h0 : P []) (h1 : ∀ a, P [a])
    (h2 : ∀ a b, P [a, b])
    (h3 : ∀ a b c l, P l → P (c :: l) → P (b :: c :: l) → P (a :: b :: c :: l)) : ∀ l, P l := by
  have key : ∀ n : Nat, ∀ l : List α, l.length ≤ n → P l := by
    intro n
    induction n with
    | zero =>
      intro l hl
      cases l with
      | nil => exact h0
      | cons a t => simp at hl
    | succ n ih =>
      intro l hl
      cases l with
      | nil => exact h0
      | cons a t =>
        cases t with
        | nil => exact h1 a
        | cons b r =>
          cases r with
          | nil => exact h2 a b
          | cons c s =>
            have hs : s.length ≤ n := by simp at hl; omega
            have hcs : (c :: s).length ≤ n := by simp at hl; simp; omega
            have hbcs : (b :: c :: s).length ≤ n := by simp at hl; simp; omega
            exact h3 a b c s (ih s hs) (ih (c :: s) hcs) (ih (b :: c :: s) hbcs)
  intro l
  exact key l.length l le_rfl

/-- Split a character list on a separator character; all segments are kept
(`splitOnChar sep l` has `count sep l + 1` segments), mirroring Rust's
`str::split`. -/
def splitOnChar (sep : Char) : List Char → List (List Char)
  | [] => [[]]
  | c :: rest =>
    if c = sep then [] :: splitOnChar sep rest
    else
      match splitOnChar sep rest with
      | l :: ls => (c :: l) :: ls
      | [] => [[c]]

/-! ## `src/utils.rs`: email validation -/

/-- Byte codes of the special characters allowed in the local part by the
validation regex in `is_valid_email` (the class
dot ! # $ % & apostrophe * + / = ? caret underscore backtick braces bar tilde hyphen). -/
def localSpecials : List Nat :=
  [46, 33, 35, 36, 37, 38, 39, 42, 43, 47, 61, 63, 94, 95, 96, 123, 124, 125, 126, 45]

/-- Characters admitted in the local part of an address by the regex. -/
def isLocalChar (c : Char) : Bool :=
  c.isAlphanum || localSpecials.contains c.toNat

/-- One domain label as accepted by the regex
`[a-zA-Z0-9](?:[a-zA-Z0-9-]{0,61}[a-zA-Z0-9])?`: nonempty, at most 63
characters, first and last alphanumeric, interior alphanumeric or hyphen. -/
def labelOk (l : List Char) : Bool :=
  decide (1 ≤ l.length) && decide (l.length ≤ 63) &&
  (l.headD ' ').isAlphanum && (l.getLastD ' ').isAlphanum &&
  l.all (fun c => c.isAlphanum || c = '-')

/-- The anchored regex of `is_valid_email`: since neither character class
contains the at sign, a match is exactly one at sign splitting the string
into a nonempty run of local characters and a dot-separated run of labels. -/
def regexOk (cs : List Char) : Bool :=
  match splitOnChar '@' cs with
  | [lpart, domain] =>
    decide (lpart ≠ []) && lpart.all isLocalChar &&
    (splitOnChar '.' domain).all labelOk
  | _ => false

/-- `is_valid_email` from `src/utils.rs`: regex match, then exactly one at
sign, local part at most 64, domain at most 255 and containing a dot, and a
top-level label of at least 2 characters. -/
def is_valid_email (email : String) : Bool :=
  if email.data.isEmpty then false
  else if ¬ regexOk email.data then false
  else
    match splitOnChar '@' email.data with
    | [lpart, domain] =>
      if ¬ decide (lpart.length ≤ 64) then false
      else if ¬ decide (domain.length ≤ 255) then false
      else if ¬ domain.contains '.' then false
      else decide (2 ≤ ((splitOnChar '.' domain).getLastD []).length)
    | _ => false

/-! ## `src/email.rs`: data model and `Email::new` -/

/-- `User` from `src/email.rs`: address with optional display name. -/
structure User where
  email : String
  name : Option String
deriving DecidableEq, Repr

/-- `User::new`. -/
def User.new (email : String) : User := ⟨email, none⟩

/-- `Attachment` from `src/email.rs`. -/
structure Attachment where
  filename : String
  content : String
  mime_type : Option String
  cid : Option String
  inline : Option Bool
deriving DecidableEq, Repr

/-- `DsnRet` from `src/email.rs`. -/
structure DsnRet where
  headers : Option Bool
  full : Option Bool
deriving DecidableEq, Repr

/-- `DsnNotify` from `src/email.rs`. -/
structure DsnNotify where
  delay : Option Bool
  failure : Option Bool
  success : Option Bool
deriving DecidableEq, Repr

/-- `DsnOverride` from `src/email.rs`. -/
structure DsnOverride where
  envelope_id : Option String
  ret : Option DsnRet
  notify : Option DsnNotify
deriving DecidableEq, Repr

/-- `Recipient` from `src/email.rs`: bare address or full `User`. -/
inductive Recipient where
  | email (e : String)
  | user (u : User)
deriving DecidableEq, Repr

/-- `EmailOptions` from `src/email.rs`.  The `HashMap` of custom headers is
modelled as an association list; none of the verified claims depends on
header-map iteration order. -/
structure EmailOptions where
  «from» : Recipient
  «to» : List Recipient
  reply : Option Recipient
  cc : Option (List Recipient)
  bcc : Option (List Recipient)
  subject : String
  text : Option String
  html : Option String
  headers : Option (List (String × String))
  attachments : Option (List Attachment)
  dsn_override : Option DsnOverride
deriving DecidableEq, Repr

/-- `EmailOptions::default`. -/
def EmailOptions.default : EmailOptions :=
  ⟨.email "", [], none, none, none, "", none, none, none, none, none⟩

/-- `EmailBuildError` from `src/email.rs`; each variant carries the message
string built by `Email::new` (and, for `InvalidEmail`, the collected list of
offending addresses). -/
inductive EmailBuildError where
  | invalidContent (msg : String)
  | invalidEmail (msg : String) (invalid_emails : List String)
deriving DecidableEq, Repr

/-- `recipients_to_users` from `src/email.rs`. -/
def recipients_to_users (rs : List Recipient) : List User :=
  rs.map fun r =>
    match r with
    | .email e => User.new e
    | .user u => u

/-- `one_recipient_to_user` from `src/email.rs`. -/
def one_recipient_to_user (r : Recipient) : User :=
  match r with
  | .email e => User.new e
  | .user u => u

/-- `Email` from `src/email.rs` (the resolved, build-time artifact). -/
structure Email where
  «from» : User
  «to» : List User
  reply : Option User
  cc : Option (List User)
  bcc : Option (List User)
  subject : String
  text : Option String
  html : Option String
  attachments : Option (List Attachment)
  dsn_override : Option DsnOverride
  headers : List (String × String)
deriving DecidableEq, Repr

/-- Comma-space join used by `invalid.join(", ")` in `Email::new`. -/
def joinComma : List String → String
  | [] => ""
  | [s] => s
  | s :: rest => s ++ ", " ++ joinComma rest

/-- The `invalid` vector built by the loops of `Email::new`: every address
failing `is_valid_email`, pushed in order from, to, reply, cc, bcc (all
recipients normalized to `User` first). -/
def collectInvalid (options : EmailOptions) : List String :=
  (if is_valid_email (one_recipient_to_user options.«from»).email then []
   else [(one_recipient_to_user options.«from»).email])
  ++ ((recipients_to_users options.«to»).filter
        (fun u => !is_valid_email u.email)).map User.email
  ++ (match options.reply.map one_recipient_to_user with
      | some r => if is_valid_email r.email then [] else [r.email]
      | none => [])
  ++ (((options.cc.map recipients_to_users).getD []).filter
        (fun u => !is_valid_email u.email)).map User.email
  ++ (((options.bcc.map recipients_to_users).getD []).filter
        (fun u => !is_valid_email u.email)).map User.email

/-- `Email::new` from `src/email.rs`: reject when neither text nor html is
present; normalize every `Recipient`; collect every address failing
`is_valid_email` in order from, to, reply, cc, bcc; fail with the full list
when any was collected; otherwise build the `Email`. -/
def Email.new (options : EmailOptions) : Except EmailBuildError Email :=
  if options.text.isNone && options.html.isNone then
    .error (.invalidContent "At least one of text or html must be provided")
  else
    let invalid := collectInvalid options
    if invalid ≠ [] then
      .error (.invalidEmail ("Invalid email address(es): " ++ joinComma invalid) invalid)
    else
      .ok ⟨one_recipient_to_user options.«from», recipients_to_users options.«to»,
        options.reply.map one_recipient_to_user,
        options.cc.map recipients_to_users, options.bcc.map recipients_to_users,
        options.subject, options.text, options.html,
        options.attachments, options.dsn_override, options.headers.getD []⟩

/-- All addresses of an options value, normalized, in the traversal order of
`Email::new` (from, to, reply, cc, bcc). -/
def allAddresses (o : EmailOptions) : List String :=
  [(one_recipient_to_user o.«from»).email]
  ++ (recipients_to_users o.«to»).map User.email
  ++ (match o.reply with
      | some r => [(one_recipient_to_user r).email]
      | none => [])
  ++ ((o.cc.map recipients_to_users).getD []).map User.email
  ++ ((o.bcc.map recipients_to_users).getD []).map User.email

/-- The addresses of an options value that fail validation, in the order
`Email::new` collects them. -/
def invalidAddresses (o : EmailOptions) : List String :=
  (allAddresses o).filter (fun a => !is_valid_email a)

example : is_valid_email "a@b.co" = true := by decide
example : is_valid_email "" = false := by decide
example : is_valid_email "invalid" = false := by decide
example : is_valid_email "a@b.c" = false := by decide

theorem filter_map_email (us : List User) :
    (us.filter (fun u => !is_valid_email u.email)).map User.email
      = (us.map User.email).filter (fun a => !is_valid_email a) := by
  induction us with
  | nil => rfl
  | cons u t ih => cases h : is_valid_email u.email <;> simp [List.filter_cons, h, ih]

instance {ε α : Type} [DecidableEq ε] [DecidableEq α] : DecidableEq (Except ε α) :=
  fun x y =>
    match x, y with
    | .ok a, .ok b => if h : a = b then .isTrue (by simp [h]) else .isFalse (by simp [h])
    | .error a, .error b => if h : a = b then .isTrue (by simp [h]) else .isFalse (by simp [h])
    | .ok _, .error _ => .isFalse (by simp)
    | .error _, .ok _ => .isFalse (by simp)

/-- The pushed `invalid` vector is exactly the filter of the normalized
address list. -/
theorem collectInvalid_eq (o : EmailOptions) : collectInvalid o = invalidAddresses o := by
  unfold collectInvalid invalidAddresses allAddresses
  rcases hr : o.reply with _ | r
  · cases h1 : is_valid_email (one_recipient_to_user o.«from»).email <;>
      simp [List.filter_append, List.filter_cons, filter_map_email, h1]
  · cases h1 : is_valid_email (one_recipient_to_user o.«from»).email <;>
      cases h2 : is_valid_email (one_recipient_to_user r).email <;>
      simp [List.filter_append, List.filter_cons, filter_map_email, h1, h2]

theorem email_new_ok (o : EmailOptions)
    (hc : (o.text.isNone && o.html.isNone) = false)
    (hv : invalidAddresses o = []) :
    Email.new o = .ok ⟨one_recipient_to_user o.«from», recipients_to_users o.«to»,
      o.reply.map one_recipient_to_user,
      o.cc.map recipients_to_users, o.bcc.map recipients_to_users,
      o.subject, o.text, o.html, o.attachments, o.dsn_override, o.headers.getD []⟩ := by
  simp [Email.new, hc, collectInvalid_eq, hv]

theorem email_new_invalid (o : EmailOptions)
    (hc : (o.text.isNone && o.html.isNone) = false)
    (hn : invalidAddresses o ≠ []) :
    Email.new o = .error (.invalidEmail
      ("Invalid email address(es): " ++ joinComma (invalidAddresses o))
      (invalidAddresses o)) := by
  simp [Email.new, hc, collectInvalid_eq, hn]

theorem content_cond_false (o : EmailOptions)
    (hc : o.text.isSome = true ∨ o.html.isSome = true) :
    (o.text.isNone && o.html.isNone) = false := by
  rcases hc with h | h <;> cases ht : o.text <;> cases hh : o.html <;> simp_all

/-- C2: with neither text nor html, `Email::new` fails with `InvalidContent`;
with at least one of them present and every address (from, to, reply, cc,
bcc, normalized) passing `is_valid_email`, it succeeds and the built `Email`
carries at least one of text/html. -/
theorem c2_email_new_content_and_validity (o : EmailOptions) :
    (o.text = none → o.html = none →
      Email.new o = .error (.invalidContent "At least one of text or html must be provided")) ∧
    ((o.text.isSome = true ∨ o.html.isSome = true) →
      (∀ a ∈ allAddresses o, is_valid_email a = true) →
      ∃ e, Email.new o = .ok e ∧ (e.text.isSome = true ∨ e.html.isSome = true)) := by
  constructor
  · intro ht hh
    simp [Email.new, ht, hh]
  · intro hc hv
    have hinv : invalidAddresses o = [] := by
      unfold invalidAddresses
      rw [List.filter_eq_nil_iff]
      intro a ha
      simp [hv a ha]
    exact ⟨_, email_new_ok o (content_cond_false o hc) hinv, hc⟩

/-- Witness for C2: a concrete options value with one valid recipient and a
text body builds successfully. -/
theorem c2_witness :
    ∃ e, Email.new { EmailOptions.default with
      «from» := Recipient.email "a@b.co"
      «to» := [Recipient.email "c@d.co"]
      text := some "hi" } = .ok e ∧
      (e.text.isSome = true ∨ e.html.isSome = true) :=
  (c2_email_new_content_and_validity _).2 (Or.inl rfl) (by decide)

/-- C3 counterexample: an options value with one invalid address but no body
fails with `InvalidContent`, not with `InvalidEmail` as the claim demands. -/
theorem c3_counterexample :
    invalidAddresses { EmailOptions.default with «from» := Recipient.email "bad" } = ["bad"] ∧
    Email.new { EmailOptions.default with «from» := Recipient.email "bad" }
      = .error (.invalidContent "At least one of text or html must be provided") ∧
    Email.new { EmailOptions.default with «from» := Recipient.email "bad" }
      ≠ .error (.invalidEmail "Invalid email address(es): bad" ["bad"]) := by
  refine ⟨by decide, by decide, by decide⟩

/-- C3 (amended): provided at least one of text/html is present, when N ≥ 1
addresses (across from, to, reply, cc, bcc, after normalization) fail
`is_valid_email`, `Email::new` fails with `InvalidEmail` carrying exactly
those N addresses, in collection order. -/
theorem c3_invalid_collected_amended (o : EmailOptions)
    (hc : o.text.isSome = true ∨ o.html.isSome = true)
    (hn : invalidAddresses o ≠ []) :
    Email.new o = .error (.invalidEmail
      ("Invalid email address(es): " ++ joinComma (invalidAddresses o))
      (invalidAddresses o)) :=
  email_new_invalid o (content_cond_false o hc) hn

/-- Witness for C3 (amended): both failing addresses are reported. -/
theorem c3_witness :
    Email.new { EmailOptions.default with
      «from» := Recipient.email "bad1"
      «to» := [Recipient.email "bad2"]
      text := some "x" }
      = .error (.invalidEmail "Invalid email address(es): bad1, bad2" ["bad1", "bad2"]) := by
  have h := c3_invalid_collected_amended
    { EmailOptions.default with
      «from» := Recipient.email "bad1"
      «to» := [Recipient.email "bad2"]
      text := some "x" } (Or.inl rfl) (by decide)
  exact h.trans (by decide)

/-- C10 counterexample: a valid from address, a text body and an empty to
list (no cc/bcc) do not guarantee success: an invalid reply address still
fails the build, so the claim as universally stated is false. -/
theorem c10_counterexample :
    is_valid_email "a@b.co" = true ∧
    Email.new { EmailOptions.default with
      «from» := Recipient.email "a@b.co"
      reply := some (Recipient.email "bad")
      text := some "x" }
      = .error (.invalidEmail "Invalid email address(es): bad" ["bad"]) := by
  refine ⟨by decide, by decide⟩

/-- C10 (amended): with a valid from address, at least one of text/html, an
empty to list, no reply and no cc/bcc, `Email::new` succeeds — the builder
performs no minimum-recipient check. -/
theorem c10_no_recipient_check_amended (o : EmailOptions)
    (hfrom : is_valid_email (one_recipient_to_user o.«from»).email = true)
    (hc : o.text.isSome = true ∨ o.html.isSome = true)
    (hto : o.«to» = []) (hreply : o.reply = none)
    (hcc : o.cc = none) (hbcc : o.bcc = none) :
    ∃ e, Email.new o = .ok e := by
  have hinv : invalidAddresses o = [] := by
    simp [invalidAddresses, allAddresses, hto, hreply, hcc, hbcc,
      recipients_to_users, hfrom]
  exact ⟨_, email_new_ok o (content_cond_false o hc) hinv⟩

/-- Witness for C10 (amended): an email with zero recipients builds. -/
theorem c10_witness :
    ∃ e, Email.new { EmailOptions.default with
      «from» := Recipient.email "a@b.co"
      text := some "x" } = .ok e :=
  c10_no_recipient_check_amended _ (by decide) (Or.inl rfl) rfl rfl rfl rfl

/-! ## `src/mailer.rs`: authentication mechanism selection -/

/-- `AuthType` from `src/mailer.rs`. -/
inductive AuthType where
  | plain
  | login
  | cramMd5
deriving DecidableEq, Repr

/-- `Credentials` from `src/mailer.rs`. -/
structure Credentials where
  username : String
  password : String
deriving DecidableEq, Repr

instance : BEq AuthType := ⟨fun a b => decide (a = b)⟩

instance : LawfulBEq AuthType where
  eq_of_beq h := by simpa [BEq.beq] using h
  rfl := by intro a; simp [BEq.beq]

/-- The mechanism chosen by the if/else-if chain in `WorkerMailer::auth`:
PLAIN when both supported and configured, else LOGIN, else CRAM-MD5, else
none (the chain's final `else` returns the "No supported auth method"
error). -/
def authMechanism (authTypeSupported authType : List AuthType) : Option AuthType :=
  if authTypeSupported.contains AuthType.plain && authType.contains AuthType.plain then
    some AuthType.plain
  else if authTypeSupported.contains AuthType.login && authType.contains AuthType.login then
    some AuthType.login
  else if authTypeSupported.contains AuthType.cramMd5 && authType.contains AuthType.cramMd5 then
    some AuthType.cramMd5
  else
    none

/-- Outcome of `WorkerMailer::auth` (`src/mailer.rs` lines 319-338), up to
the point where a mechanism's exchange starts: skip when the server never
advertised AUTH, error when credentials are absent, otherwise run the chain
of `authMechanism`; `ok (some m)` means the session authenticates with
mechanism `m`. -/
def auth (allow_auth : Bool) (credentials : Option Credentials)
    (auth_type_supported auth_type : List AuthType) : Except String (Option AuthType) :=
  if !allow_auth then .ok none
  else
    match credentials with
    | none => .error "Auth required but no credentials"
    | some _ =>
      match authMechanism auth_type_supported auth_type with
      | some m => .ok (some m)
      | none => .error "No supported auth method"

/-- Modelled from the spec sentence of the claim: the first mechanism, in
the caller's configured preference order, that the server also advertises. -/
def firstPreferredMechanism (auth_type auth_type_supported : List AuthType) : Option AuthType :=
  auth_type.find? (fun m => auth_type_supported.contains m)

/-- C4 counterexample: with caller preference order LOGIN then PLAIN and
both mechanisms advertised, the code picks PLAIN (its fixed chain order),
not LOGIN as the claim requires. -/
theorem c4_counterexample :
    auth true (some ⟨"u", "p"⟩) [AuthType.plain, AuthType.login]
        [AuthType.login, AuthType.plain] = .ok (some AuthType.plain) ∧
    firstPreferredMechanism [AuthType.login, AuthType.plain]
        [AuthType.plain, AuthType.login] = some AuthType.login ∧
    AuthType.plain ≠ AuthType.login := by
  refine ⟨by decide, by decide, by decide⟩

/-- C4 (amended): when the server advertised AUTH and credentials are
present, the session authenticates with the first mechanism in the FIXED
order PLAIN, LOGIN, CRAM-MD5 that is both configured by the caller and
advertised by the server (independent of the caller's preference order);
when no mechanism is in both lists, auth fails with an error. -/
theorem c4_fixed_order_amended (supported caller : List AuthType) (cr : Credentials) :
    (authMechanism supported caller
      = [AuthType.plain, AuthType.login, AuthType.cramMd5].find?
          (fun m => supported.contains m && caller.contains m)) ∧
    ((∀ m, (supported.contains m && caller.contains m) = false) →
      auth true (some cr) supported caller = .error "No supported auth method") ∧
    (∀ m, authMechanism supported caller = some m →
      auth true (some cr) supported caller = .ok (some m)) := by
  refine ⟨?_, ?_, ?_⟩
  · cases h1 : supported.contains AuthType.plain && caller.contains AuthType.plain <;>
      cases h2 : supported.contains AuthType.login && caller.contains AuthType.login <;>
      cases h3 : supported.contains AuthType.cramMd5 && caller.contains AuthType.cramMd5 <;>
      simp only [authMechanism, h1, h2, h3, List.find?, if_true, if_false,
        Bool.false_eq_true, if_neg, if_pos, Bool.true_eq_false, ite_true, ite_false]
  · intro hnone
    have h1 := hnone AuthType.plain
    have h2 := hnone AuthType.login
    have h1 : ¬(AuthType.plain ∈ supported ∧ AuthType.plain ∈ caller) := by
      have := hnone AuthType.plain; rintro ⟨a, b⟩; simp_all
    have h2 : ¬(AuthType.login ∈ supported ∧ AuthType.login ∈ caller) := by
      have := hnone AuthType.login; rintro ⟨a, b⟩; simp_all
    have h3 : ¬(AuthType.cramMd5 ∈ supported ∧ AuthType.cramMd5 ∈ caller) := by
      have := hnone AuthType.cramMd5; rintro ⟨a, b⟩; simp_all
    simp [auth, authMechanism, h1, h2, h3]
  · intro m hm
    simp [auth, hm]

/-- Witness for C4 (amended): empty intersection yields the auth error, and
a PLAIN/PLAIN agreement authenticates with PLAIN. -/
theorem c4_witness :
    auth true (some ⟨"u", "p"⟩) [AuthType.cramMd5] [AuthType.plain]
      = .error "No supported auth method" ∧
    auth true (some ⟨"u", "p"⟩) [AuthType.plain] [AuthType.plain]
      = .ok (some AuthType.plain) := by
  refine ⟨(c4_fixed_order_amended [AuthType.cramMd5] [AuthType.plain] ⟨"u", "p"⟩).2.1
    (by intro m; cases m <;> decide),
    (c4_fixed_order_amended [AuthType.plain] [AuthType.plain] ⟨"u", "p"⟩).2.2
    AuthType.plain (by decide)⟩

/-! ## UTF-8 encoding and decoding

`encode` in `src/utils.rs` is `str::as_bytes` (UTF-8 serialization) and
`decode` is `String::from_utf8` (strict UTF-8 validation).  Both are
modelled on byte lists. -/

/-- UTF-8 bytes of one scalar value. -/
def utf8EncodeChar (c : Char) : List Nat :=
  let n := c.toNat
  if n < 128 then [n]
  else if n < 2048 then [192 + n / 64, 128 + n % 64]
  else if n < 65536 then [224 + n / 4096, 128 + (n / 64) % 64, 128 + n % 64]
  else [240 + n / 262144, 128 + (n / 4096) % 64, 128 + (n / 64) % 64, 128 + n % 64]

/-- `encode` from `src/utils.rs`: the UTF-8 bytes of a string. -/
def utf8Encode (s : String) : List Nat :=
  (s.data.map utf8EncodeChar).flatten

/-- Strict UTF-8 decoding automaton (the validation of Rust's
`String::from_utf8`): `pending` continuation bytes are still expected, the
next one must lie in `[lo, hi]` (the first continuation byte of a sequence
has a restricted range that excludes overlong forms and surrogates), and
`acc` holds the partial scalar value. -/
def utf8Go : List Nat → Nat → Nat → Nat → Nat → Option (List Char)
  | [], pending, _, _, _ => if pending = 0 then some [] else none
  | b :: rest, 0, _, _, _ =>
    if b ≤ 127 then (utf8Go rest 0 0 0 0).map (fun cs => Char.ofNat b :: cs)
    else if 194 ≤ b ∧ b ≤ 223 then utf8Go rest 1 128 191 (b - 192)
    else if b = 224 then utf8Go rest 2 160 191 0
    else if b = 237 then utf8Go rest 2 128 159 13
    else if 224 ≤ b ∧ b ≤ 239 then utf8Go rest 2 128 191 (b - 224)
    else if b = 240 then utf8Go rest 3 144 191 0
    else if b = 244 then utf8Go rest 3 128 143 4
    else if 240 ≤ b ∧ b ≤ 244 then utf8Go rest 3 128 191 (b - 240)
    else none
  | b :: rest, p + 1, lo, hi, acc =>
    if lo ≤ b ∧ b ≤ hi then
      if p = 0 then (utf8Go rest 0 0 0 0).map (fun cs => Char.ofNat (acc * 64 + (b - 128)) :: cs)
      else utf8Go rest p 128 191 (acc * 64 + (b - 128))
    else none

/-- `decode` from `src/utils.rs` (`String::from_utf8`): `none` models the
`FromUtf8Error` case. -/
def utf8Decode (bs : List Nat) : Option String :=
  (utf8Go bs 0 0 0 0).map String.mk

/-! ## `src/mailer.rs`: `read_response` -/

/-- Split on the newline character, keeping every segment. -/
def splitNL : List Char → List (List Char)
  | [] => [[]]
  | c :: rest =>
    if c = '\n' then [] :: splitNL rest
    else
      match splitNL rest with
      | l :: ls => (c :: l) :: ls
      | [] => [[c]]

/-- Remove one trailing carriage return, as Rust's `str::lines` does. -/
def stripCR : List Char → List Char
  | [] => []
  | ['\r'] => []
  | c :: rest => c :: stripCR rest

/-- Drop the final segment when it is empty (Rust's `str::lines` treats the
final line ending as optional). -/
def dropLastEmpty : List (List Char) → List (List Char)
  | [] => []
  | [[]] => []
  | [l] => [l]
  | l :: rest => l :: dropLastEmpty rest

/-- Rust's `str::lines`: split at newlines, strip one trailing carriage
return per line, no trailing empty line. -/
def rustLines (s : String) : List String :=
  (dropLastEmpty (splitNL s.data)).map (fun l => String.mk (stripCR l))

/-- Byte length of a string (Rust's `str::len`). -/
def utf8Len (s : String) : Nat := (utf8Encode s).length

/-- The loop-exit test of `WorkerMailer::read_response` (`src/mailer.rs`
lines 235-247): continue unless the accumulated text ends with a newline;
then take `lines().rev().nth(1)` — the SECOND-to-last produced line, since
Rust's `lines()` yields no trailing empty segment — defaulting to the empty
string, and stop unless that line has at least 4 bytes and its fourth
character is a hyphen. -/
def stopCond (response : String) : Bool :=
  if response.data.getLast? ≠ some '\n' then false
  else
    let lines := rustLines response
    let last := ((lines.reverse)[1]?).getD ""
    if 4 ≤ utf8Len last then
      decide (((last.data[3]?).getD ' ') ≠ '-')
    else true

/-- The accumulation loop of `read_response`: each list element is the byte
chunk delivered by one socket `read`; an exhausted list models `read`
returning 0 (peer closed), which breaks the loop. A chunk that fails UTF-8
decoding aborts with an error (the `?` on `decode(..)` in the source); the
error text stands for the `FromUtf8Error` display. -/
def read_response_go : List (List Nat) → String → Except String String
  | [], acc => .ok acc
  | c :: rest, acc =>
    match utf8Decode c with
    | none => .error "invalid utf-8 sequence"
    | some s =>
      let acc2 := acc ++ s
      if stopCond acc2 then .ok acc2 else read_response_go rest acc2

/-- `WorkerMailer::read_response` over a chunk sequence, starting from the
empty accumulator. -/
def read_response (chunks : List (List Nat)) : Except String String :=
  read_response_go chunks ""

/-- Modelled from the spec: the reader stops exactly when the accumulated
text ends with a newline-terminated final reply line whose fourth character
is not a hyphen. -/
def specStop (response : String) : Bool :=
  response.data.getLast? == some '\n' &&
  (match (rustLines response).getLast? with
   | some last => decide (4 ≤ utf8Len last) && decide (((last.data[3]?).getD ' ') ≠ '-')
   | none => false)

/-- C1: the reader inspects the second-to-last line instead of the last
one.  Fed the reply `250-A\r\n` then `250 B\r\n` it stops after the first
chunk, returning only the continuation line, although the spec predicate
says reading must continue there; and on the full accumulated reply
`250-A\r\n250 B\r\n` the code's exit test says continue although the spec
predicate says stop. -/
theorem c1_read_response_checks_wrong_line :
    read_response [utf8Encode "250-A\r\n", utf8Encode "250 B\r\n"] = .ok "250-A\r\n" ∧
    specStop "250-A\r\n" = false ∧
    stopCond "250-A\r\n250 B\r\n" = false ∧
    specStop "250-A\r\n250 B\r\n" = true := by
  refine ⟨by decide, by decide, by decide, by decide⟩

/-- C9 counterexample: a chunk that fails UTF-8 decoding makes
`read_response` return an error for the whole read instead of contributing
nothing and continuing (the following well-formed chunk is never reached). -/
theorem c9_counterexample :
    utf8Decode [255] = none ∧
    read_response [[255], utf8Encode "250 ok\r\n"] = .error "invalid utf-8 sequence" := by
  refine ⟨by decide, by decide⟩

/-- C9 (amended): whenever the next received chunk fails UTF-8 decoding,
`read_response` aborts the whole read with an error, regardless of what
would follow. -/
theorem c9_decode_error_aborts_amended (c : List Nat) (rest : List (List Nat))
    (h : utf8Decode c = none) :
    read_response (c :: rest) = .error "invalid utf-8 sequence" := by
  simp [read_response, read_response_go, h]

/-- Witness for C9 (amended) at the byte 0xFF. -/
theorem c9_witness : read_response [[255]] = .error "invalid utf-8 sequence" :=
  c9_decode_error_aborts_amended [255] [] (by decide)

/-! ## `src/email.rs`: boundary generation -/

/-- Lowercase hex digit. -/
def hexDigitL (n : Nat) : Char :=
  if n < 10 then Char.ofNat (48 + n) else Char.ofNat (87 + n)

/-- The two lowercase hex digits printed for one byte by
`format ":02x"` (the byte values produced by `getrandom` are below 256). -/
def hexByteL (b : Nat) : List Char :=
  [hexDigitL (b / 16), hexDigitL (b % 16)]

/-- Characters that `generate_safe_boundary` replaces by an underscore. -/
def boundaryBadChar (c : Char) : Bool :=
  [60, 62, 64, 44, 59, 58, 92, 47, 91, 93, 63, 61, 34, 32].contains c.toNat

/-- `Email::generate_safe_boundary` from `src/email.rs`: hex-encode the 28
random bytes (`getrandom` fills the buffer; on failure the buffer stays all
zero), prepend the part-kind tag, and replace every character illegal in a
MIME boundary by an underscore.  The random bytes are passed explicitly. -/
def generate_safe_boundary (pfx : String) (randomBytes : List Nat) : String :=
  let hex := (randomBytes.map hexByteL).flatten
  let boundary := pfx.data ++ hex
  String.mk (boundary.map (fun c => if boundaryBadChar c then '_' else c))

theorem hexFlatten_length (bs : List Nat) :
    ((bs.map hexByteL).flatten).length = 2 * bs.length := by
  induction bs with
  | nil => rfl
  | cons b t ih => simp [hexByteL, ih]; ring

theorem generate_safe_boundary_length (pfx : String) (bs : List Nat) :
    (generate_safe_boundary pfx bs).data.length = pfx.data.length + 2 * bs.length := by
  unfold generate_safe_boundary
  simp only [List.length_map, List.length_append]
  rw [hexFlatten_length]

/-- C8: for one render of `get_email_data`, the three boundary tokens are
pairwise distinct for every output of the random source (28 bytes each,
including the all-zero fallback): the three prefixes have different
lengths, and both hex encoding and the character substitution preserve
length, so the three tokens always differ in length. -/
theorem c8_boundaries_distinct (a b c : List Nat)
    (ha : a.length = 28) (hb : b.length = 28) (hc : c.length = 28) :
    generate_safe_boundary "mixed_" a ≠ generate_safe_boundary "related_" b ∧
    generate_safe_boundary "mixed_" a ≠ generate_safe_boundary "alternative_" c ∧
    generate_safe_boundary "related_" b ≠ generate_safe_boundary "alternative_" c := by
  have la := generate_safe_boundary_length "mixed_" a
  have lb := generate_safe_boundary_length "related_" b
  have lc := generate_safe_boundary_length "alternative_" c
  rw [ha] at la
  rw [hb] at lb
  rw [hc] at lc
  refine ⟨fun h => ?_, fun h => ?_, fun h => ?_⟩
  · rw [h] at la; rw [la] at lb; simp at lb
  · rw [h] at la; rw [la] at lc; simp at lc
  · rw [h] at lb; rw [lb] at lc; simp at lc

/-- Witness for C8 at the all-zero fallback output of the random source. -/
theorem c8_witness :
    generate_safe_boundary "mixed_" (List.replicate 28 0)
      ≠ generate_safe_boundary "related_" (List.replicate 28 0) ∧
    generate_safe_boundary "mixed_" (List.replicate 28 0)
      ≠ generate_safe_boundary "alternative_" (List.replicate 28 0) ∧
    generate_safe_boundary "related_" (List.replicate 28 0)
      ≠ generate_safe_boundary "alternative_" (List.replicate 28 0) :=
  c8_boundaries_distinct (List.replicate 28 0) (List.replicate 28 0) (List.replicate 28 0)
    (by decide) (by decide) (by decide)

/-! ## `src/email.rs`: dot stuffing -/

/-- Split a character list at CRLF pairs (every segment kept). -/
def splitCRLF : List Char → List (List Char)
  | [] => [[]]
  | [c] => [[c]]
  | c :: c2 :: rest =>
    if c = '\r' ∧ c2 = '\n' then [] :: splitCRLF rest
    else
      match splitCRLF (c2 :: rest) with
      | l :: ls => (c :: l) :: ls
      | [] => [[c]]

/-- Join segments back with CRLF separators. -/
def joinCRLF : List (List Char) → List Char
  | [] => []
  | [l] => l
  | l :: ls => l ++ '\r' :: '\n' :: joinCRLF ls

/-- Prepend one dot to a line that starts with a dot. -/
def stuffLine (l : List Char) : List Char :=
  if l.head? = some '.' then '.' :: l else l

/-- Rust's `data.replace("\r\n.", "\r\n..")`: scan left to right, on a match
emit the replacement and continue after the matched occurrence. -/
def replaceDot : List Char → List Char
  | [] => []
  | [c] => [c]
  | [c, c2] => [c, c2]
  | c :: c2 :: c3 :: rest =>
    if c = '\r' ∧ c2 = '\n' ∧ c3 = '.' then
      '\r' :: '\n' :: '.' :: '.' :: replaceDot rest
    else
      c :: replaceDot (c2 :: c3 :: rest)

/-- `Email::apply_dot_stuffing` from `src/email.rs`: replace `\r\n.` by
`\r\n..`, then insert a leading dot when the result starts with a dot. -/
def apply_dot_stuffing (data : String) : String :=
  let result := replaceDot data.data
  if result.head? = some '.' then String.mk ('.' :: result) else String.mk result

/-- The tail of `Email::get_email_data` (`src/email.rs` lines 451-452):
dot-stuff the rendered document, THEN append the `\r\n.\r\n` end-of-data
marker. -/
def withTerminator (emailData : String) : String :=
  apply_dot_stuffing emailData ++ "\r\n.\r\n"

theorem splitCRLF_shape (cs : List Char) : ∃ l ls, splitCRLF cs = l :: ls := by
  induction cs using list_twoStep with
  | h0 => exact ⟨[], [], rfl⟩
  | h1 c => exact ⟨[c], [], rfl⟩
  | h2 a b l ih1 ih2 =>
    by_cases h : a = '\r' ∧ b = '\n'
    · exact ⟨[], splitCRLF l, by simp [splitCRLF, h]⟩
    · obtain ⟨m, ms, hm⟩ := ih2
      exact ⟨a :: m, ms, by simp [splitCRLF, h, hm]⟩

theorem splitCRLF_cons_of (c : Char) (cs : List Char) (l : List Char) (ls : List (List Char))
    (h : ¬(c = '\r' ∧ cs.head? = some '\n')) (hs : splitCRLF cs = l :: ls) :
    splitCRLF (c :: cs) = (c :: l) :: ls := by
  cases cs with
  | nil =>
    simp [splitCRLF] at hs
    simp [splitCRLF, hs.1, hs.2]
  | cons c2 rest =>
    have hcond : ¬(c = '\r' ∧ c2 = '\n') := by simpa using h
    simp [splitCRLF, hcond, hs]

theorem splitCRLF_head_of_ne (c : Char) (cs : List Char) (l : List Char)
    (ls : List (List Char)) (hc : c ≠ '\r') (hs : splitCRLF (c :: cs) = l :: ls) :
    ∃ t, l = c :: t := by
  obtain ⟨m, ms, hm⟩ := splitCRLF_shape cs
  have := splitCRLF_cons_of c cs m ms (by rintro ⟨h1, _⟩; exact hc h1) hm
  rw [this] at hs
  exact ⟨m, by injection hs with h1 _; exact h1.symm⟩

theorem splitCRLF_head (c : Char) (cs : List Char) (l : List Char)
    (ls : List (List Char)) (hs : splitCRLF (c :: cs) = l :: ls) :
    l = [] ∨ ∃ t, l = c :: t := by
  by_cases hc : c = '\r'
  · cases cs with
    | nil =>
      simp [splitCRLF] at hs
      exact Or.inr ⟨[], hs.1.symm⟩
    | cons c2 rest =>
      by_cases h2 : c2 = '\n'
      · simp [splitCRLF, hc, h2] at hs
        exact Or.inl hs.1
      · obtain ⟨m, ms, hm⟩ := splitCRLF_shape (c2 :: rest)
        have := splitCRLF_cons_of c (c2 :: rest) m ms (by simp [h2]) hm
        rw [this] at hs
        exact Or.inr ⟨m, by injection hs with h1 _; exact h1.symm⟩
  · exact Or.inr (splitCRLF_head_of_ne c cs l ls hc hs)

theorem joinCRLF_cons (x : Char) (l : List Char) (ls : List (List Char)) :
    joinCRLF ((x :: l) :: ls) = x :: joinCRLF (l :: ls) := by
  cases ls with
  | nil => simp [joinCRLF]
  | cons m ms => simp [joinCRLF]

theorem join_splitCRLF (cs : List Char) : joinCRLF (splitCRLF cs) = cs := by
  induction cs using list_twoStep with
  | h0 => rfl
  | h1 c => rfl
  | h2 a b l ih1 ih2 =>
    by_cases h : a = '\r' ∧ b = '\n'
    · obtain ⟨m, ms, hm⟩ := splitCRLF_shape l
      rw [show splitCRLF (a :: b :: l) = [] :: splitCRLF l by simp [splitCRLF, h], hm]
      have : joinCRLF ([] :: m :: ms) = '\r' :: '\n' :: joinCRLF (m :: ms) := by
        simp [joinCRLF]
      rw [this, ← hm, ih1, h.1, h.2]
    · obtain ⟨m, ms, hm⟩ := splitCRLF_shape (b :: l)
      rw [splitCRLF_cons_of a (b :: l) m ms (by simpa using fun h1 h2 => h ⟨h1, h2⟩) hm,
        joinCRLF_cons, ← hm, ih2]

theorem replaceDot_head (cs : List Char) : (replaceDot cs).head? = cs.head? := by
  rcases cs with _ | ⟨a, _ | ⟨b, _ | ⟨c, l⟩⟩⟩
  · rfl
  · rfl
  · rfl
  · by_cases h : a = '\r' ∧ b = '\n' ∧ c = '.'
    · simp [replaceDot, h, h.1]
    · simp [replaceDot, h]

/-- `replace("\r\n.", "\r\n..")` is exactly: stuff every line except the
first one. -/
theorem replaceDot_eq (cs : List Char) : ∀ (l : List Char) (ls : List (List Char)),
    splitCRLF cs = l :: ls → replaceDot cs = joinCRLF (l :: ls.map stuffLine) := by
  induction cs using list_threeStep with
  | h0 =>
    intro l ls hs
    simp [splitCRLF] at hs
    simp [replaceDot, hs.1, hs.2, joinCRLF]
  | h1 c =>
    intro l ls hs
    simp [splitCRLF] at hs
    simp [replaceDot, hs.1, hs.2, joinCRLF]
  | h2 a b =>
    intro l ls hs
    by_cases h : a = '\r' ∧ b = '\n'
    · simp [splitCRLF, h] at hs
      obtain ⟨h1, h2⟩ := hs
      subst h1
      subst h2
      simp [replaceDot, h.1, h.2, joinCRLF, stuffLine]
    · simp [splitCRLF, h] at hs
      obtain ⟨h1, h2⟩ := hs
      subst h1
      subst h2
      simp [replaceDot, joinCRLF]
  | h3 a b c l ih3 ih2 ih1 =>
    intro l0 ls0 hs
    by_cases hab : a = '\r' ∧ b = '\n'
    · by_cases hc : c = '.'
      · -- matched occurrence of CRLF dot
        obtain ⟨m, ms, hm⟩ := splitCRLF_shape l
        have hdot : splitCRLF (c :: l) = (c :: m) :: ms :=
          splitCRLF_cons_of c l m ms (by rintro ⟨h1, _⟩; rw [hc] at h1; cases h1) hm
        have hsplit : splitCRLF (a :: b :: c :: l) = [] :: (c :: m) :: ms := by
          simp [splitCRLF, hab, hdot]
        rw [hsplit] at hs
        injection hs with e1 e2
        subst e1
        subst e2
        have hrepl : replaceDot (a :: b :: c :: l) =
            '\r' :: '\n' :: '.' :: '.' :: replaceDot l := by
          simp [replaceDot, hab.1, hab.2, hc]
        rw [hrepl, ih3 m ms hm]
        rw [hc]
        have : stuffLine ('.' :: m) = '.' :: '.' :: m := by simp [stuffLine]
        simp only [List.map_cons, this]
        have hj : joinCRLF (([] : List Char) :: ('.' :: '.' :: m) :: ms.map stuffLine)
            = '\r' :: '\n' :: joinCRLF (('.' :: '.' :: m) :: ms.map stuffLine) := by
          simp [joinCRLF]
        rw [hj, joinCRLF_cons, joinCRLF_cons]
      · -- CRLF followed by a non-dot character
        obtain ⟨m, ms, hm⟩ := splitCRLF_shape (c :: l)
        have hsplit : splitCRLF (a :: b :: c :: l) = [] :: m :: ms := by
          simp [splitCRLF, hab, hm]
        rw [hsplit] at hs
        injection hs with e1 e2
        subst e1
        subst e2
        have hrepl : replaceDot (a :: b :: c :: l) = '\r' :: '\n' :: replaceDot (c :: l) := by
          have h1 : ¬(a = '\r' ∧ b = '\n' ∧ c = '.') := by
            rintro ⟨_, _, h3⟩; exact hc h3
          cases l with
          | nil => simp [replaceDot, h1, hab.1, hab.2, hc]
          | cons d t =>
            have h2 : ¬(b = '\r' ∧ c = '\n' ∧ d = '.') := by
              rintro ⟨hb, _, _⟩; rw [hab.2] at hb; cases hb
            simp [replaceDot, h1, h2, hab.1, hab.2, hc]
        rw [hrepl, ih2 m ms hm]
        have hstuff : stuffLine m = m := by
          rcases splitCRLF_head c l m ms hm with h | ⟨t, ht⟩
          · simp [h, stuffLine]
          · simp [ht, stuffLine, hc]
        have hj : joinCRLF (([] : List Char) :: (m :: ms).map stuffLine)
            = '\r' :: '\n' :: joinCRLF ((m :: ms).map stuffLine) := by
          simp [joinCRLF]
        rw [hj]
        simp only [List.map_cons, hstuff]
    · -- first two characters are not CRLF
      obtain ⟨m, ms, hm⟩ := splitCRLF_shape (b :: c :: l)
      have hsplit : splitCRLF (a :: b :: c :: l) = (a :: m) :: ms :=
        splitCRLF_cons_of a (b :: c :: l) m ms (by simpa using fun h1 h2 => hab ⟨h1, h2⟩) hm
      rw [hsplit] at hs
      injection hs with e1 e2
      subst e1
      subst e2
      have hrepl : replaceDot (a :: b :: c :: l) = a :: replaceDot (b :: c :: l) := by
        have h1 : ¬(a = '\r' ∧ b = '\n' ∧ c = '.') := by
          rintro ⟨ha, hb, _⟩; exact hab ⟨ha, hb⟩
        simp [replaceDot, h1]
      rw [hrepl, ih1 m ms hm, joinCRLF_cons]

theorem string_data_ext (a b : String) (h : a.data = b.data) : a = b := by
  cases a
  cases b
  cases h
  rfl

theorem map_stuffLine_id (ls : List (List Char)) (h : ∀ x ∈ ls, stuffLine x = x) :
    ls.map stuffLine = ls := by
  induction ls with
  | nil => rfl
  | cons x t ih => simp [h x (by simp), ih (fun y hy => h y (by simp [hy]))]

/-- `apply_dot_stuffing` stuffs every line, the first one included: each
line starting with a dot gains exactly one extra leading dot, every other
line is unchanged. -/
theorem apply_dot_stuffing_lines (s : String) (l : List Char) (ls : List (List Char))
    (h : splitCRLF s.data = l :: ls) :
    (apply_dot_stuffing s).data = joinCRLF (stuffLine l :: ls.map stuffLine) := by
  have hrd := replaceDot_eq s.data l ls h
  unfold apply_dot_stuffing
  by_cases hh : (replaceDot s.data).head? = some '.'
  · rw [if_pos hh]
    have hsh : s.data.head? = some '.' := by rw [← replaceDot_head]; exact hh
    obtain ⟨rest, hrest⟩ : ∃ rest, s.data = '.' :: rest := by
      cases hd : s.data with
      | nil => simp [hd] at hsh
      | cons c t =>
        rw [hd] at hsh
        simp at hsh
        exact ⟨t, by rw [hsh]⟩
    obtain ⟨t, ht⟩ : ∃ t, l = '.' :: t := by
      rw [hrest] at h
      exact splitCRLF_head_of_ne '.' rest l ls (by decide) h
    have hst : stuffLine l = '.' :: l := by rw [ht]; simp [stuffLine]
    rw [hst, joinCRLF_cons, ← hrd]
  · rw [if_neg hh]
    have hsh : s.data.head? ≠ some '.' := by rw [← replaceDot_head]; exact hh
    have hst : stuffLine l = l := by
      cases hd : s.data with
      | nil =>
        rw [hd] at h
        simp [splitCRLF] at h
        simp [h.1, stuffLine]
      | cons c t =>
        rw [hd] at h
        rcases splitCRLF_head c t l ls h with h0 | ⟨t2, ht2⟩
        · simp [h0, stuffLine]
        · have hc : c ≠ '.' := by
            rw [hd] at hsh
            simpa using hsh
          simp [ht2, stuffLine, hc]
    rw [hst, ← hrd]

/-- C7: dot-stuffing, line by line: `apply_dot_stuffing` gives every line
starting with a dot exactly one extra leading dot (the `\r\n.` to `\r\n..`
replacement handles every line but the first, the starts-with check handles
the first), and since `get_email_data` appends the `\r\n.\r\n` end-of-data
marker only AFTER stuffing, a document none of whose lines starts with a
dot is passed through unchanged with the terminator intact. -/
theorem c7_dot_stuffing :
    (∀ (s : String) (l : List Char) (ls : List (List Char)), splitCRLF s.data = l :: ls →
      (apply_dot_stuffing s).data = joinCRLF ((l :: ls).map stuffLine)) ∧
    (∀ s : String, (∀ l ∈ splitCRLF s.data, l.head? ≠ some '.') →
      apply_dot_stuffing s = s ∧ withTerminator s = s ++ "\r\n.\r\n") := by
  constructor
  · intro s l ls h
    rw [List.map_cons]
    exact apply_dot_stuffing_lines s l ls h
  · intro s hno
    have heq : apply_dot_stuffing s = s := by
      obtain ⟨l, ls, h⟩ := splitCRLF_shape s.data
      have hmap : (l :: ls).map stuffLine = l :: ls := by
        refine map_stuffLine_id (l :: ls) ?_
        intro x hx
        have := hno x (by rw [h]; exact hx)
        simp [stuffLine, this]
      have hd : (apply_dot_stuffing s).data = s.data := by
        rw [apply_dot_stuffing_lines s l ls h, show stuffLine l :: ls.map stuffLine
          = (l :: ls).map stuffLine from (List.map_cons _ _ _).symm, hmap, ← h,
          join_splitCRLF]
      exact string_data_ext _ _ hd
    exact ⟨heq, by unfold withTerminator; rw [heq]⟩

/-- Witness for C7: a two-line document with no dot-initial line is unchanged
and the appended terminator survives verbatim. -/
theorem c7_witness :
    apply_dot_stuffing "A\r\nB" = "A\r\nB" ∧
    withTerminator "A\r\nB" = "A\r\nB" ++ "\r\n.\r\n" :=
  c7_dot_stuffing.2 "A\r\nB" (by decide)

/-! ## `src/utils.rs`: quoted-printable encoding -/

/-- Uppercase hex digit, as printed by `format ":02X"`. -/
def hexDigitU (n : Nat) : Char :=
  if n < 10 then Char.ofNat (48 + n) else Char.ofNat (55 + n)

/-- The `needs_encoding` test of `encode_quoted_printable` for a byte that
is not a line break: control characters other than space and tab, bytes
above 126, the equals sign, and a space or tab directly before a line break
(or at the end of the input). -/
def qpNeedsEnc (b : Nat) (next : Option Nat) : Bool :=
  let isWs := b == 32 || b == 9
  let nextBreak :=
    match next with
    | none => true
    | some nb => nb == 10 || nb == 13
  (decide (b < 32) && !(b == 32) && !(b == 9)) || decide (126 < b) || b == 61 ||
    (isWs && nextBreak)

/-- The characters pushed for one non-line-break byte other than 0x0D:
either `=XX` or the literal character. -/
def qpToken (b : Nat) (next : Option Nat) : List Char :=
  if qpNeedsEnc b next then ['=', hexDigitU (b / 16), hexDigitU (b % 16)]
  else [Char.ofNat b]

/-- The soft-line-break insertion of `encode_quoted_printable`: when the
current line plus the token would exceed `line_length - 3` (saturating),
emit `=\r\n` before the token. -/
def qpWrapEmit (w : Nat) (tok : List Char) (col : Nat) : List Char :=
  if w - 3 < col + tok.length then '=' :: '\r' :: '\n' :: tok else tok

/-- The line length after pushing a token (reset on a soft break). -/
def qpNewCol (w : Nat) (tok : List Char) (col : Nat) : Nat :=
  if w - 3 < col + tok.length then tok.length else col + tok.length

/-- The byte loop of `encode_quoted_printable` (`src/utils.rs` lines
63-103): 0x0A and 0x0D 0x0A emit a hard `\r\n` and reset the line length; a
lone 0x0D becomes `=0D`; every other byte becomes its token; tokens pass
through the soft-wrap logic. -/
def qpGo (w : Nat) : List Nat → Nat → List Char
  | [], _ => []
  | [b], col =>
    if b = 10 then ['\r', '\n']
    else qpWrapEmit w (if b = 13 then ['=', '0', 'D'] else qpToken b none) col
  | b :: b2 :: rest, col =>
    if b = 10 then '\r' :: '\n' :: qpGo w (b2 :: rest) 0
    else if b = 13 ∧ b2 = 10 then '\r' :: '\n' :: qpGo w rest 0
    else
      qpWrapEmit w (if b = 13 then ['=', '0', 'D'] else qpToken b (some b2)) col ++
        qpGo w (b2 :: rest)
          (qpNewCol w (if b = 13 then ['=', '0', 'D'] else qpToken b (some b2)) col)

/-- `encode_quoted_printable` from `src/utils.rs`: encode the UTF-8 bytes
of the text, starting at line length 0. -/
def encode_quoted_printable (text : String) (line_length : Nat) : String :=
  String.mk (qpGo line_length (utf8Encode text) 0)

/-- Value of a hex digit accepted in a `=XX` escape (digits and uppercase
letters, as emitted by the encoder). -/
def hexVal (c : Char) : Option Nat :=
  if 48 ≤ c.toNat ∧ c.toNat ≤ 57 then some (c.toNat - 48)
  else if 65 ≤ c.toNat ∧ c.toNat ≤ 70 then some (c.toNat - 55)
  else none

/-- Modelled from the claim: a reference RFC 2045 quoted-printable decoder,
undoing `=XX` escapes and `=\r\n` soft line breaks and passing every other
character through as its byte (a malformed escape, which the encoder never
emits, passes the equals sign and the following characters through). -/
def decodeQP : List Char → List Nat
  | [] => []
  | c :: rest =>
    if c = '=' then
      match rest with
      | r1 :: r2 :: rest2 =>
        if r1 = '\r' ∧ r2 = '\n' then decodeQP rest2
        else
          match hexVal r1, hexVal r2 with
          | some a, some b2 => (16 * a + b2) :: decodeQP rest2
          | _, _ => 61 :: r1.toNat :: r2.toNat :: decodeQP rest2
      | [r1] => [61, r1.toNat]
      | [] => [61]
    else c.toNat :: decodeQP rest

/-- The input bytes with every bare LF normalized to CRLF (CRLF pairs and
lone CRs are untouched). -/
def normalizeLF : List Nat → List Nat
  | [] => []
  | [b] => if b = 10 then [13, 10] else [b]
  | b :: b2 :: rest =>
    if b = 10 then 13 :: 10 :: normalizeLF (b2 :: rest)
    else if b = 13 ∧ b2 = 10 then 13 :: 10 :: normalizeLF rest
    else b :: normalizeLF (b2 :: rest)

theorem decodeQP_soft (xs : List Char) : decodeQP ('=' :: '\r' :: '\n' :: xs) = decodeQP xs := by
  simp [decodeQP]

theorem decodeQP_lit (c : Char) (xs : List Char) (hc : c ≠ '=') :
    decodeQP (c :: xs) = c.toNat :: decodeQP xs := by
  rcases xs with _ | ⟨r1, _ | ⟨r2, rest2⟩⟩ <;> simp [decodeQP, hc]

theorem decodeQP_crlf (xs : List Char) : decodeQP ('\r' :: '\n' :: xs) = 13 :: 10 :: decodeQP xs := by
  rw [decodeQP_lit '\r' _ (by decide), decodeQP_lit '\n' _ (by decide),
    show '\r'.toNat = 13 from by decide, show '\n'.toNat = 10 from by decide]

theorem hexVal_hexDigitU : ∀ d < 16, hexVal (hexDigitU d) = some d := by decide

theorem hexDigitU_ne_cr : ∀ d < 16, hexDigitU d ≠ '\r' ∧ hexDigitU d ≠ '\n' := by decide

theorem charOfNat_toNat : ∀ b < 127, (Char.ofNat b).toNat = b := by decide

theorem decodeQP_hex (b : Nat) (hb : b < 256) (xs : List Char) :
    decodeQP ('=' :: hexDigitU (b / 16) :: hexDigitU (b % 16) :: xs) = b :: decodeQP xs := by
  have hd : b / 16 < 16 := by omega
  have hm : b % 16 < 16 := by omega
  have h1 : hexVal (hexDigitU (b / 16)) = some (b / 16) := hexVal_hexDigitU _ hd
  have h2 : hexVal (hexDigitU (b % 16)) = some (b % 16) := hexVal_hexDigitU _ hm
  have hne : ¬(hexDigitU (b / 16) = '\r' ∧ hexDigitU (b % 16) = '\n') := by
    rintro ⟨h, _⟩
    exact (hexDigitU_ne_cr _ hd).1 h
  have hdm : 16 * (b / 16) + b % 16 = b := Nat.div_add_mod b 16
  simp [decodeQP, hne, h1, h2, hdm]

theorem decodeQP_0D (xs : List Char) : decodeQP ('=' :: '0' :: 'D' :: xs) = 13 :: decodeQP xs := by
  rw [show ('0' : Char) = hexDigitU (13 / 16) from by decide,
    show ('D' : Char) = hexDigitU (13 % 16) from by decide]
  exact decodeQP_hex 13 (by omega) xs

theorem decodeQP_wrapEmit (w : Nat) (tok : List Char) (col : Nat) (xs : List Char) :
    decodeQP (qpWrapEmit w tok col ++ xs) = decodeQP (tok ++ xs) := by
  unfold qpWrapEmit
  split
  · rw [List.cons_append, List.cons_append, List.cons_append, decodeQP_soft]
  · rfl

theorem decodeQP_token (b : Nat) (hb : b < 256) (_hb10 : b ≠ 10) (_hb13 : b ≠ 13)
    (next : Option Nat) (xs : List Char) :
    decodeQP (qpToken b next ++ xs) = b :: decodeQP xs := by
  unfold qpToken
  cases hE : qpNeedsEnc b next
  · have h126 : ¬(126 < b) := by
      intro h
      unfold qpNeedsEnc at hE
      simp [h] at hE
    have h61 : b ≠ 61 := by
      intro h
      unfold qpNeedsEnc at hE
      simp [h] at hE
    have htn : (Char.ofNat b).toNat = b := charOfNat_toNat b (by omega)
    have hne : Char.ofNat b ≠ '=' := by
      intro h
      rw [h, show ('=' : Char).toNat = 61 from by decide] at htn
      exact h61 htn.symm
    rw [if_neg (by simp [hE]), List.singleton_append, decodeQP_lit _ _ hne, htn]
  · rw [if_pos (by simp [hE]), List.cons_append, List.cons_append, List.cons_append,
      List.nil_append, decodeQP_hex b hb xs]

/-- Decoding the encoder's output undoes it, up to LF-to-CRLF
normalization, for every starting line length. -/
theorem qp_roundtrip_go (w : Nat) : ∀ bs : List Nat, (∀ b ∈ bs, b < 256) → ∀ col,
    decodeQP (qpGo w bs col) = normalizeLF bs := by
  intro bs
  induction bs using list_twoStep with
  | h0 => intro _ col; rfl
  | h1 b =>
    intro hmem col
    have hb : b < 256 := hmem b (by simp)
    by_cases h10 : b = 10
    · subst h10
      rw [show qpGo w [10] col = ['\r', '\n'] from by simp [qpGo],
        show (['\r', '\n'] : List Char) = '\r' :: '\n' :: [] from rfl, decodeQP_crlf]
      rfl
    · by_cases h13 : b = 13
      · subst h13
        rw [show qpGo w [13] col = qpWrapEmit w ['=', '0', 'D'] col from by simp [qpGo],
          ← List.append_nil (qpWrapEmit w ['=', '0', 'D'] col), decodeQP_wrapEmit,
          show (['=', '0', 'D'] : List Char) ++ [] = '=' :: '0' :: 'D' :: [] from rfl,
          decodeQP_0D]
        rfl
      · rw [show qpGo w [b] col = qpWrapEmit w (qpToken b none) col from by
            simp [qpGo, h10, h13],
          ← List.append_nil (qpWrapEmit w (qpToken b none) col), decodeQP_wrapEmit,
          decodeQP_token b hb h10 h13 none []]
        simp [normalizeLF, h10, decodeQP]
  | h2 b b2 rest ih1 ih2 =>
    intro hmem col
    have hb : b < 256 := hmem b (by simp)
    have hm2 : ∀ x ∈ b2 :: rest, x < 256 := by
      intro x hx
      rcases List.mem_cons.mp hx with h | h
      · exact hmem x (by simp [h])
      · exact hmem x (by simp [h])
    have hmr : ∀ x ∈ rest, x < 256 := by
      intro x hx
      exact hmem x (by simp [hx])
    by_cases h10 : b = 10
    · subst h10
      rw [show qpGo w (10 :: b2 :: rest) col = '\r' :: '\n' :: qpGo w (b2 :: rest) 0 from by
          simp [qpGo],
        decodeQP_crlf, ih2 hm2 0]
      simp [normalizeLF]
    · by_cases hcr : b = 13 ∧ b2 = 10
      · obtain ⟨hb13, hb2⟩ := hcr
        subst hb13
        subst hb2
        rw [show qpGo w (13 :: 10 :: rest) col = '\r' :: '\n' :: qpGo w rest 0 from by
            simp [qpGo],
          decodeQP_crlf, ih1 hmr 0]
        simp [normalizeLF]
      · by_cases h13 : b = 13
        · subst h13
          have hb2 : b2 ≠ 10 := fun h => hcr ⟨rfl, h⟩
          rw [show qpGo w (13 :: b2 :: rest) col
              = qpWrapEmit w ['=', '0', 'D'] col ++
                qpGo w (b2 :: rest) (qpNewCol w ['=', '0', 'D'] col) from by
            simp [qpGo, hb2], decodeQP_wrapEmit, List.cons_append, List.cons_append,
            List.cons_append, List.nil_append, decodeQP_0D, ih2 hm2 _]
          simp [normalizeLF, hb2]
        · rw [show qpGo w (b :: b2 :: rest) col
              = qpWrapEmit w (qpToken b (some b2)) col ++
                qpGo w (b2 :: rest) (qpNewCol w (qpToken b (some b2)) col) from by
            simp [qpGo, h10, hcr, h13], decodeQP_wrapEmit,
            decodeQP_token b hb h10 h13 (some b2) _, ih2 hm2 _]
          simp [normalizeLF, h10, h13]

theorem char_toNat_lt (c : Char) : c.toNat < 1114112 := by
  have h := c.valid
  rcases h with h | ⟨h1, h2⟩
  · exact Nat.lt_trans h (by norm_num)
  · exact h2

theorem utf8EncodeChar_lt (c : Char) : ∀ b ∈ utf8EncodeChar c, b < 256 := by
  have hc : c.toNat < 1114112 := char_toNat_lt c
  intro b hb
  by_cases h1 : c.toNat < 128
  · simp [utf8EncodeChar, h1] at hb
    omega
  · by_cases h2 : c.toNat < 2048
    · simp [utf8EncodeChar, h1, h2] at hb
      rcases hb with h | h <;> omega
    · by_cases h3 : c.toNat < 65536
      · simp [utf8EncodeChar, h1, h2, h3] at hb
        rcases hb with h | h | h <;> omega
      · simp [utf8EncodeChar, h1, h2, h3] at hb
        rcases hb with h | h | h | h <;> omega

theorem utf8Encode_lt (s : String) : ∀ b ∈ utf8Encode s, b < 256 := by
  intro b hb
  unfold utf8Encode at hb
  simp [List.mem_flatten] at hb
  obtain ⟨c, _, hbc⟩ := hb
  exact utf8EncodeChar_lt c b hbc

/-- C5 counterexample: the input `a\nb` round-trips to `a\r\nb` — the
encoder normalizes a bare LF to a hard CRLF break, so decoding does not
return the original bytes. -/
theorem c5_counterexample :
    utf8Encode "a\nb" = [97, 10, 98] ∧
    decodeQP (encode_quoted_printable "a\nb" 76).data = [97, 13, 10, 98] ∧
    decodeQP (encode_quoted_printable "a\nb" 76).data ≠ utf8Encode "a\nb" := by
  refine ⟨by decide, by decide, by decide⟩

/-- C5 (amended): for every input string, decoding the output of
`encode_quoted_printable text 76` with the reference decoder yields exactly
the original UTF-8 bytes with every bare LF normalized to CRLF; in
particular the round trip is exact for every input whose line breaks are
already CRLF (or that has no LF at all). -/
theorem c5_roundtrip_amended (text : String) :
    decodeQP (encode_quoted_printable text 76).data = normalizeLF (utf8Encode text) :=
  qp_roundtrip_go 76 (utf8Encode text) (utf8Encode_lt text) 0

theorem qpToken_no_cr (b : Nat) (hb : b < 256) (h13 : b ≠ 13) (next : Option Nat) :
    ∀ c ∈ qpToken b next, c ≠ '\r' := by
  intro c hc
  by_cases hE : qpNeedsEnc b next
  · simp [qpToken, hE] at hc
    rcases hc with h | h | h <;> subst h
    · decide
    · exact (hexDigitU_ne_cr _ (by omega)).1
    · exact (hexDigitU_ne_cr _ (by omega)).1
  · simp [qpToken, hE] at hc
    subst hc
    have h126 : ¬(126 < b) := by
      intro h
      simp [qpNeedsEnc, h] at hE
    have htn := charOfNat_toNat b (by omega)
    intro h
    rw [h, show ('\r').toNat = 13 from by decide] at htn
    exact h13 htn.symm

theorem qpToken_length (b : Nat) (next : Option Nat) :
    1 ≤ (qpToken b next).length ∧ (qpToken b next).length ≤ 3 := by
  unfold qpToken
  split <;> simp

theorem splitCRLF_append_noCR (tok : List Char) (h : ∀ c ∈ tok, c ≠ '\r') :
    ∀ (cs l : List Char) (ls : List (List Char)),
      splitCRLF cs = l :: ls → splitCRLF (tok ++ cs) = (tok ++ l) :: ls := by
  induction tok with
  | nil =>
    intro cs l ls hs
    simpa using hs
  | cons t ts ih =>
    intro cs l ls hs
    have ht : t ≠ '\r' := h t (by simp)
    have hts : ∀ c ∈ ts, c ≠ '\r' := fun c hc => h c (by simp [hc])
    have h2 := splitCRLF_cons_of t (ts ++ cs) (ts ++ l) ls
      (by rintro ⟨h1, _⟩; exact ht h1) (ih hts cs l ls hs)
    simpa using h2

theorem splitCRLF_only (tok : List Char) (h : ∀ c ∈ tok, c ≠ '\r') :
    splitCRLF tok = [tok] := by
  have := splitCRLF_append_noCR tok h [] [] [] rfl
  simpa using this

/-- Invariant proof for the soft-wrap logic: starting from a line length
that is at most `max (w-3) 3`, the first produced line plus the starting
length fits in `w` and every further line fits in `w`. -/
theorem qp_lines_go (w : Nat) (hw : 4 ≤ w) : ∀ bs : List Nat, (∀ b ∈ bs, b < 256) →
    ∀ col, col ≤ max (w - 3) 3 →
    ∀ (l : List Char) (ls : List (List Char)), splitCRLF (qpGo w bs col) = l :: ls →
      col + l.length ≤ w ∧ ∀ m ∈ ls, m.length ≤ w := by
  have hmax1 : w - 3 ≤ max (w - 3) 3 := le_max_left _ _
  have hmax2 : (3 : Nat) ≤ max (w - 3) 3 := le_max_right _ _
  have hmw : max (w - 3) 3 ≤ w := max_le (by omega) (by omega)
  intro bs
  induction bs using list_twoStep with
  | h0 =>
    intro _ col hcol l ls hs
    rw [show qpGo w [] col = [] from rfl, show splitCRLF [] = [[]] from rfl] at hs
    injection hs with e1 e2
    subst e1
    subst e2
    exact ⟨by simp; omega, by intro m hm; simp at hm⟩
  | h1 b =>
    intro hmem col hcol l ls hs
    have hb : b < 256 := hmem b (by simp)
    by_cases h10 : b = 10
    · subst h10
      rw [show qpGo w [10] col = ['\r', '\n'] from by simp [qpGo],
        show splitCRLF ['\r', '\n'] = [[], []] from by decide] at hs
      injection hs with e1 e2
      subst e1
      subst e2
      refine ⟨by simp; omega, ?_⟩
      intro m hm
      simp at hm
      simp [hm]
    · have htokcr : ∀ c ∈ (if b = 13 then ['=', '0', 'D'] else qpToken b none), c ≠ '\r' := by
        split
        · intro c hc
          simp at hc
          rcases hc with h | h | h <;> subst h <;> decide
        · exact qpToken_no_cr b hb (by assumption) none
      have htoklen : 1 ≤ (if b = 13 then ['=', '0', 'D'] else qpToken b none).length ∧
          (if b = 13 then ['=', '0', 'D'] else qpToken b none).length ≤ 3 := by
        split
        · simp
        · exact qpToken_length b none
      rw [show qpGo w [b] col
          = qpWrapEmit w (if b = 13 then ['=', '0', 'D'] else qpToken b none) col from by
        simp [qpGo, h10]] at hs
      unfold qpWrapEmit at hs
      by_cases hwrap : w - 3 <
          col + (if b = 13 then ['=', '0', 'D'] else qpToken b none).length
      · rw [if_pos hwrap] at hs
        rw [show splitCRLF ('=' :: '\r' :: '\n' ::
              (if b = 13 then ['=', '0', 'D'] else qpToken b none))
            = ['='] :: [(if b = 13 then ['=', '0', 'D'] else qpToken b none)] from by
          have h1 : splitCRLF ('\r' :: '\n' ::
              (if b = 13 then ['=', '0', 'D'] else qpToken b none))
              = [] :: splitCRLF (if b = 13 then ['=', '0', 'D'] else qpToken b none) := by
            simp [splitCRLF]
          have h2 := splitCRLF_only _ htokcr
          have h3 := splitCRLF_cons_of '=' ('\r' :: '\n' ::
              (if b = 13 then ['=', '0', 'D'] else qpToken b none))
              [] [(if b = 13 then ['=', '0', 'D'] else qpToken b none)]
              (by rintro ⟨he, _⟩; cases he) (by rw [h1, h2])
          simpa using h3] at hs
        injection hs with e1 e2
        subst e1
        subst e2
        refine ⟨by simp; omega, ?_⟩
        intro m hm
        simp at hm
        subst hm
        omega
      · rw [if_neg hwrap, splitCRLF_only _ htokcr] at hs
        injection hs with e1 e2
        subst e1
        subst e2
        exact ⟨by omega, by intro m hm; simp at hm⟩
  | h2 b b2 rest ih1 ih2 =>
    intro hmem col hcol l ls hs
    have hb : b < 256 := hmem b (by simp)
    have hm2 : ∀ x ∈ b2 :: rest, x < 256 := by
      intro x hx
      rcases List.mem_cons.mp hx with h | h
      · exact hmem x (by simp [h])
      · exact hmem x (by simp [h])
    have hmr : ∀ x ∈ rest, x < 256 := fun x hx => hmem x (by simp [hx])
    by_cases h10 : b = 10
    · subst h10
      rw [show qpGo w (10 :: b2 :: rest) col = '\r' :: '\n' :: qpGo w (b2 :: rest) 0 from by
        simp [qpGo]] at hs
      obtain ⟨l2, ls2, hrec⟩ := splitCRLF_shape (qpGo w (b2 :: rest) 0)
      rw [show splitCRLF ('\r' :: '\n' :: qpGo w (b2 :: rest) 0) = [] :: l2 :: ls2 from by
        simp [splitCRLF, hrec]] at hs
      injection hs with e1 e2
      subst e1
      subst e2
      have IH := ih2 hm2 0 (by omega) l2 ls2 hrec
      refine ⟨by simp; omega, ?_⟩
      intro m hm
      rcases List.mem_cons.mp hm with h | h
      · subst h
        omega
      · exact IH.2 m h
    · by_cases hcr : b = 13 ∧ b2 = 10
      · obtain ⟨hb13, hb2⟩ := hcr
        subst hb13
        subst hb2
        rw [show qpGo w (13 :: 10 :: rest) col = '\r' :: '\n' :: qpGo w rest 0 from by
          simp [qpGo]] at hs
        obtain ⟨l2, ls2, hrec⟩ := splitCRLF_shape (qpGo w rest 0)
        rw [show splitCRLF ('\r' :: '\n' :: qpGo w rest 0) = [] :: l2 :: ls2 from by
          simp [splitCRLF, hrec]] at hs
        injection hs with e1 e2
        subst e1
        subst e2
        have IH := ih1 hmr 0 (by omega) l2 ls2 hrec
        refine ⟨by simp; omega, ?_⟩
        intro m hm
        rcases List.mem_cons.mp hm with h | h
        · subst h
          omega
        · exact IH.2 m h
      · have htokcr : ∀ c ∈ (if b = 13 then ['=', '0', 'D'] else qpToken b (some b2)),
            c ≠ '\r' := by
          split
          · intro c hc
            simp at hc
            rcases hc with h | h | h <;> subst h <;> decide
          · exact qpToken_no_cr b hb (by assumption) (some b2)
        have htoklen : 1 ≤ (if b = 13 then ['=', '0', 'D'] else qpToken b (some b2)).length ∧
            (if b = 13 then ['=', '0', 'D'] else qpToken b (some b2)).length ≤ 3 := by
          split
          · simp
          · exact qpToken_length b (some b2)
        rw [show qpGo w (b :: b2 :: rest) col
            = qpWrapEmit w (if b = 13 then ['=', '0', 'D'] else qpToken b (some b2)) col ++
              qpGo w (b2 :: rest)
                (qpNewCol w (if b = 13 then ['=', '0', 'D'] else qpToken b (some b2)) col)
            from by simp [qpGo, h10, hcr]] at hs
        have hnewcol : qpNewCol w (if b = 13 then ['=', '0', 'D'] else qpToken b (some b2)) col
            ≤ max (w - 3) 3 := by
          by_cases hcnd : w - 3 <
              col + (if b = 13 then ['=', '0', 'D'] else qpToken b (some b2)).length
          · unfold qpNewCol
            rw [if_pos hcnd]
            omega
          · unfold qpNewCol
            rw [if_neg hcnd]
            omega
        obtain ⟨l2, ls2, hrec⟩ := splitCRLF_shape (qpGo w (b2 :: rest)
          (qpNewCol w (if b = 13 then ['=', '0', 'D'] else qpToken b (some b2)) col))
        have IH := ih2 hm2 _ hnewcol l2 ls2 hrec
        have happ := splitCRLF_append_noCR _ htokcr _ l2 ls2 hrec
        unfold qpWrapEmit at hs
        by_cases hwrap : w - 3 <
            col + (if b = 13 then ['=', '0', 'D'] else qpToken b (some b2)).length
        · rw [if_pos hwrap] at hs
          rw [List.cons_append, List.cons_append, List.cons_append] at hs
          rw [show splitCRLF ('=' :: '\r' :: '\n' ::
                ((if b = 13 then ['=', '0', 'D'] else qpToken b (some b2)) ++
                  qpGo w (b2 :: rest)
                    (qpNewCol w (if b = 13 then ['=', '0', 'D'] else qpToken b (some b2)) col)))
              = ['='] :: ((if b = 13 then ['=', '0', 'D'] else qpToken b (some b2)) ++ l2)
                :: ls2 from by
            have h1 := splitCRLF_cons_of '='
              ('\r' :: '\n' ::
                ((if b = 13 then ['=', '0', 'D'] else qpToken b (some b2)) ++
                  qpGo w (b2 :: rest)
                    (qpNewCol w (if b = 13 then ['=', '0', 'D'] else qpToken b (some b2)) col)))
              [] (((if b = 13 then ['=', '0', 'D'] else qpToken b (some b2)) ++ l2) :: ls2)
              (by rintro ⟨he, _⟩; cases he) (by simp [splitCRLF, happ])
            simpa using h1] at hs
          injection hs with e1 e2
          subst e1
          subst e2
          have hcolused : qpNewCol w
              (if b = 13 then ['=', '0', 'D'] else qpToken b (some b2)) col
              = (if b = 13 then ['=', '0', 'D'] else qpToken b (some b2)).length := by
            unfold qpNewCol
            rw [if_pos hwrap]
          refine ⟨by simp; omega, ?_⟩
          intro m hm
          rcases List.mem_cons.mp hm with h | h
          · subst h
            have := IH.1
            rw [hcolused] at this
            simp
            omega
          · exact IH.2 m h
        · rw [if_neg hwrap, happ] at hs
          injection hs with e1 e2
          subst e1
          subst e2
          have hcolused : qpNewCol w
              (if b = 13 then ['=', '0', 'D'] else qpToken b (some b2)) col
              = col + (if b = 13 then ['=', '0', 'D'] else qpToken b (some b2)).length := by
            unfold qpNewCol
            rw [if_neg hwrap]
          refine ⟨?_, IH.2⟩
          have := IH.1
          rw [hcolused] at this
          simp
          omega

/-- C6: for every input string and every wrap width of at least 4, every
line of the encoder's output (splitting at CRLF, soft-break lines with
their trailing equals sign included) has length at most the width; in
particular no line of a width-76 encoding exceeds 76 characters. -/
theorem c6_line_length_bound (text : String) (w : Nat) (hw : 4 ≤ w) :
    ∀ l ∈ splitCRLF (encode_quoted_printable text w).data, l.length ≤ w := by
  intro l hl
  obtain ⟨l0, ls0, hs⟩ := splitCRLF_shape (qpGo w (utf8Encode text) 0)
  have h := qp_lines_go w hw (utf8Encode text) (utf8Encode_lt text) 0 (by omega) l0 ls0 hs
  have hl2 : l ∈ l0 :: ls0 := by
    rw [← hs]
    exact hl
  rcases List.mem_cons.mp hl2 with h1 | h1
  · subst h1
    omega
  · exact h.2 l h1

/-- Witness for C6 at width 76 on a concrete long line: every output line
fits in 76 characters. -/
theorem c6_witness :
    (splitCRLF (encode_quoted_printable
      "aaaaaaaaaaaaaaaaaaaaaaaaaaaaaaaaaaaaaaaaaaaaaaaaaaaaaaaaaaaaaaaaaaaaaaaaaaaaaaaaaaaaaaaa"
      76).data).all (fun l => decide (l.length ≤ 76)) = true := by
  rw [List.all_eq_true]
  intro l hl
  simpa using c6_line_length_bound
    "aaaaaaaaaaaaaaaaaaaaaaaaaaaaaaaaaaaaaaaaaaaaaaaaaaaaaaaaaaaaaaaaaaaaaaaaaaaaaaaaaaaaaaaa"
    76 (by omega) l hl
